import Mathlib

/-!
Verification of the portfolio-sort core of the ff-factors repository
(`src/tidy-finance/bivariate-sorts.py` and `src/tidy-finance/ff-factors.py`).

The breakpoint/assignment routine `assign_portfolio` is embedded shallowly:
sorting-variable values are rationals, breakpoints live in the extended
rationals `ERat` (rationals with `-Inf` and `+Inf` adjoined), pandas
`Series.quantile(..., interpolation="linear")` is the standard linear
interpolation of order statistics, `Series.drop_duplicates` keeps the first
occurrence, and `pd.cut(..., right=False, include_lowest=True)` is modelled
by its searchsorted semantics (for a sorted bin list, `searchsorted(x,
side="right")` is the number of bin edges `≤ x`; an index of 0 or
`len(bins)` yields a missing label, `none`).
-/

attribute [local semireducible] Rat.add Rat.mul Rat.sub Rat.inv Rat.ofScientific

/-- Extended rationals: the value space of breakpoints, with `⊥ = -Inf` and
`⊤ = +Inf`. -/
abbrev ERat : Type := WithBot (WithTop ℚ)

/-- Embed a rational into `ERat`. -/
def ratERat (q : ℚ) : ERat := ((q : WithTop ℚ) : ERat)

/-- Linear interpolation of the sorted value list `s` at fractional position
`h`, as numpy/pandas compute a linear-interpolation quantile: with `i = ⌊h⌋`,
the result is `s[i] + (h - i) * (s[i+1] - s[i])` (clamped to `s[i]` at the
upper end). -/
def interpAt (s : List ℚ) (h : ℚ) : ℚ :=
  s.getD (⌊h⌋).toNat 0 +
    (h - ((⌊h⌋).toNat : ℚ)) *
      (s.getD ((⌊h⌋).toNat + 1) (s.getD (⌊h⌋).toNat 0) - s.getD (⌊h⌋).toNat 0)

/-- `Series.quantile(q, interpolation="linear")`: sort the values and
interpolate at position `q * (n - 1)`. -/
def quantile (xs : List ℚ) (q : ℚ) : ℚ :=
  interpAt (xs.insertionSort (· ≤ ·)) (q * ((xs.length : ℚ) - 1))

/-- `np.linspace(0, 1, num=n+1)`: the probabilities `0, 1/n, …, 1`. -/
def linspace (n : ℕ) : List ℚ :=
  (List.range (n + 1)).map (fun i : ℕ => (i : ℚ) / (n : ℚ))

/-- `Series.drop_duplicates` (keep first occurrence), with the already-seen
values accumulated in `seen`. -/
def dropDupAux (seen : List ℚ) : List ℚ → List ℚ
  | [] => []
  | x :: xs => if x ∈ seen then dropDupAux seen xs else x :: dropDupAux (x :: seen) xs

/-- `Series.drop_duplicates` (keep first occurrence). -/
def dropDuplicates (l : List ℚ) : List ℚ := dropDupAux [] l

/-- The two end-overwrites of `assign_portfolio`:
`breakpoints.iloc[0] = -np.Inf` followed by
`breakpoints.iloc[breakpoints.size-1] = np.Inf`.  On a one-element list both
assignments hit index 0, so the single entry ends up `+Inf`. -/
def setEnds (l : List ERat) : List ERat :=
  ((l.set 0 ⊥).set ((l.set 0 ⊥).length - 1) ⊤)

/-- The breakpoint computation of `assign_portfolio`
(bivariate-sorts.py, lines 91-100): quantiles of the reference-universe
values at `linspace 0 1 (n_portfolios+1)`, duplicates removed, first entry
replaced by `-Inf` and then the last by `+Inf`.  An empty reference universe
gives all-NaN quantiles, which `drop_duplicates` collapses to one entry
(pandas treats NaNs as equal there); both end-overwrites then hit that entry,
so the code silently yields the single breakpoint `+Inf`. -/
def computeBreakpoints (refVals : List ℚ) (nPortfolios : ℕ) : List ERat :=
  if refVals = [] then [⊤]
  else
    setEnds ((dropDuplicates ((linspace nPortfolios).map (quantile refVals))).map ratERat)

/-- The searchsorted index pd.cut uses with `right=False` (side="right"):
for sorted bins, the number of bin edges `≤ v`; then the `include_lowest`
adjustment (`ids[x == bins[0]] = 1`). -/
def pdCutIds (bins : List ERat) (v : ℚ) : ℕ :=
  if ratERat v = bins.getD 0 ⊥ then 1
  else (bins.filter (fun b => decide (b ≤ ratERat v))).length

/-- `pd.cut(v, bins, labels=range(1, bins.size), include_lowest=True,
right=False)` for one value: label `i` means `v` lies in the left-closed
interval `[bins[i-1], bins[i])`; an index of 0 or `bins.size` means no
interval contains `v`, giving a missing label (`none`, pandas NaN). -/
def assignPortfolio (bins : List ERat) (v : ℚ) : Option ℕ :=
  if pdCutIds bins v = 0 ∨ pdCutIds bins v = bins.length then none
  else some (pdCutIds bins v)

/-- One observation of the cross-section at a period: identifier, the
reference-universe flag (`exchange == 'NYSE'`), the two sorting variables
`me` (market equity) and `bm` (book-to-market), the excess return and the
lagged market cap used as portfolio weight. -/
structure Obs where
  pid : ℕ
  nyse : Bool
  me : ℚ
  bm : ℚ
  ret : ℚ
  mktcapLag : ℚ
deriving DecidableEq

/-- `data.query("exchange in exchanges").get(sorting_variable)`: the
sorting-variable values of the reference universe. -/
def refValues (data : List Obs) (f : Obs → ℚ) : List ℚ :=
  (data.filter (fun o => o.nyse)).map f

/-- `assign_portfolio(data, exchanges, sorting_variable, n_portfolios)` for
one observation `o` of `data`: breakpoints from the reference universe of
`data`, bucketing of `o`'s own value. -/
def assign_portfolio (data : List Obs) (f : Obs → ℚ) (n_portfolios : ℕ) (o : Obs) : Option ℕ :=
  assignPortfolio (computeBreakpoints (refValues data f) n_portfolios) (f o)

/-- Independent sorts (bivariate-sorts.py, lines 118-128): both variables'
labels are computed over the full cross-section; number of observations of
one period landing in the combined group (me-label `i`, bm-label `j`). -/
def indepCount (data : List Obs) (nP i j : ℕ) : ℕ :=
  (data.filter (fun o =>
    decide (assign_portfolio data Obs.me nP o = some i) &&
    decide (assign_portfolio data Obs.bm nP o = some j))).length

/-- Dependent sorts, step 1+partition (bivariate-sorts.py, lines 159-170):
the observations whose size label is `i`. -/
def depPartition (data : List Obs) (nP i : ℕ) : List Obs :=
  data.filter (fun o => decide (assign_portfolio data Obs.me nP o = some i))

/-- Dependent sorts (bivariate-sorts.py, lines 159-177): within the size
partition `i`, the bm reference universe and breakpoints are recomputed from
the partition itself; number of observations landing in combined group
(me-label `i`, bm-label `j`). -/
def depCount (data : List Obs) (nP i j : ℕ) : ℕ :=
  ((depPartition data nP i).filter (fun o =>
    decide (assign_portfolio (depPartition data nP i) Obs.bm nP o = some j))).length

/-- An all-NYSE observation with size `m` and book-to-market `b`. -/
def mkObs (k : ℕ) (m b : ℚ) : Obs := ⟨k, true, m, b, 0, 1⟩

/-- A one-period cross-section in which the secondary variable (bm) is
perfectly correlated with the primary (me). -/
def c6Data : List Obs := [mkObs 1 1 1, mkObs 2 2 2, mkObs 3 3 3, mkObs 4 4 4]

/-- Mean of a list of rationals (`Series.mean`). -/
def meanQ (l : List ℚ) : ℚ := l.sum / (l.length : ℚ)

/-- The label column of a per-period portfolio-return table whose rows are
(portfolio label, portfolio return). -/
def labelCol (rows : List (ℕ × ℚ)) : List ℕ := rows.map Prod.fst

/-- The returns of the rows carrying label `lab`
(`x.loc[x[col] == lab, "ret"]` and `x["ret"][x[col] == lab]`). -/
def retsWith (rows : List (ℕ × ℚ)) (lab : ℕ) : List ℚ :=
  (rows.filter (fun r => decide (r.1 = lab))).map Prod.snd

/-- `Series.max` on a list of labels (labels are ≥ 1 in use). -/
def natsMax (l : List ℕ) : ℕ := l.foldr max 0

/-- `Series.min` on a nonempty list of labels. -/
def natsMin : List ℕ → ℕ
  | [] => 0
  | [x] => x
  | x :: y :: t => min x (natsMin (y :: t))

/-- The per-date body of `value_premium` (bivariate-sorts.py, lines 143-150):
mean return of the rows carrying the maximal bm label of the table, minus
mean return of the rows carrying the minimal one. -/
def value_premium_of (rows : List (ℕ × ℚ)) : ℚ :=
  meanQ (retsWith rows (natsMax (labelCol rows))) -
    meanQ (retsWith rows (natsMin (labelCol rows)))

/-- The HML leg of `factors_replicated` (ff-factors.py, lines 168-171):
mean return at bm label 3 minus mean return at bm label 1, labels
hard-coded. -/
def hml_of (rows : List (ℕ × ℚ)) : ℚ := meanQ (retsWith rows 3) - meanQ (retsWith rows 1)

/-- The SMB leg of `factors_replicated` (ff-factors.py, lines 163-166):
mean return at size label 1 minus mean return at size label 2, labels
hard-coded. -/
def smb_of (rows : List (ℕ × ℚ)) : ℚ := meanQ (retsWith rows 1) - meanQ (retsWith rows 2)

/-- Modelled from the claim's words, to be compared with the code: "the mean
of the per-group returns carrying that variable's extreme top label (the
maximum label present) minus the mean of the per-group returns carrying the
extreme bottom label (the minimum label present)". -/
def specLongShort (rows : List (ℕ × ℚ)) : ℚ :=
  meanQ (retsWith rows (natsMax (labelCol rows))) -
    meanQ (retsWith rows (natsMin (labelCol rows)))

/-- `np.average(x["ret_excess"], weights=x["mktcap_lag"])` on rows of
(return, weight): sum of products over sum of weights. -/
def portfolioReturn (rows : List (ℚ × ℚ)) : ℚ :=
  (rows.map (fun p => p.1 * p.2)).sum / (rows.map Prod.snd).sum

/-- Modelled from the spec's words `Σ(r·w)/Σ(w)`, written with explicit
folds, to be compared with the code's `np.average`. -/
def valueWeightedMean (rows : List (ℚ × ℚ)) : ℚ :=
  (rows.foldr (fun p acc => p.1 * p.2 + acc) 0) / (rows.foldr (fun p acc => p.2 + acc) 0)

/-- `.round(4)`: round to four decimal places. -/
def round4 (x : ℚ) : ℚ := ((round (x * 10000) : ℤ) : ℚ) / 10000

/-- One month of one firm's merged CRSP row before the staleness filter:
the date (as a month count), and the book-to-market value and its
accounting date (`comp_date`), both possibly missing. -/
structure FirmRow where
  date : ℤ
  bm : Option ℚ
  compDate : Option ℤ
deriving DecidableEq

/-- `fillna(method="ffill")` on the `bm` and `comp_date` columns of one
firm's date-sorted rows: a missing value is replaced by the most recent
non-missing one, carried in `pbm`/`pcd`. -/
def ffillFirm (pbm : Option ℚ) (pcd : Option ℤ) : List FirmRow → List FirmRow
  | [] => []
  | r :: rs =>
    (FirmRow.mk r.date (r.bm.rec pbm (fun b => some b)) (r.compDate.rec pcd (fun c => some c))) ::
      ffillFirm (r.bm.rec pbm (fun b => some b)) (r.compDate.rec pcd (fun c => some c)) rs

/-- `query("comp_date > threshold_date")` with
`threshold_date = date - 12 months`, followed by `dropna()`: a row survives
iff its (forward-filled) `comp_date` is present and strictly later than
`date - 12`, and its `bm` is present.  A missing `comp_date` compares as
False in the pandas query, so such rows are dropped too. -/
def keepFresh (r : FirmRow) : Bool :=
  match r.compDate, r.bm with
  | some cd, some _ => decide (r.date - 12 < cd)
  | _, _ => false

/-- The staleness step of `data_for_sorts` (bivariate-sorts.py, lines 71-84)
for one firm's date-sorted rows: forward-fill `bm` and `comp_date`, then
keep the rows whose carried book-to-market value is at most 12 months
old. -/
def data_for_sorts_firm (rows : List FirmRow) : List FirmRow :=
  (ffillFirm none none rows).filter keepFresh

lemma dropDupAux_sublist (l : List ℚ) : ∀ seen, (dropDupAux seen l).Sublist l := by
  induction l with
  | nil => intro seen; simp [dropDupAux]
  | cons x xs ih =>
    intro seen
    by_cases hx : x ∈ seen
    · simpa [dropDupAux, hx] using (ih seen).cons x
    · simpa [dropDupAux, hx] using (ih (x :: seen)).cons₂ x

lemma mem_dropDupAux_not_seen (l : List ℚ) :
    ∀ seen y, y ∈ dropDupAux seen l → y ∉ seen := by
  induction l with
  | nil => intro seen y hy; simp [dropDupAux] at hy
  | cons x xs ih =>
    intro seen y hy
    by_cases hx : x ∈ seen
    · exact ih seen y (by simpa [dropDupAux, hx] using hy)
    · rw [dropDupAux, if_neg hx] at hy
      rcases List.mem_cons.1 hy with rfl | hy'
      · exact hx
      · intro hseen
        exact ih (x :: seen) y hy' (List.mem_cons_of_mem x hseen)

lemma dropDupAux_nodup (l : List ℚ) : ∀ seen, (dropDupAux seen l).Nodup := by
  induction l with
  | nil => intro seen; simp [dropDupAux]
  | cons x xs ih =>
    intro seen
    by_cases hx : x ∈ seen
    · simpa [dropDupAux, hx] using ih seen
    · rw [dropDupAux, if_neg hx]
      refine List.nodup_cons.2 ⟨?_, ih (x :: seen)⟩
      intro hmem
      exact mem_dropDupAux_not_seen xs (x :: seen) x hmem (List.mem_cons_self x seen)

lemma dropDupAux_length_lt (l : List ℚ) :
    ∀ seen, (¬ l.Nodup ∨ ∃ x ∈ l, x ∈ seen) → (dropDupAux seen l).length < l.length := by
  induction l with
  | nil =>
    intro seen h
    rcases h with h | ⟨x, hx, _⟩
    · exact absurd List.nodup_nil h
    · simp at hx
  | cons x xs ih =>
    intro seen h
    by_cases hx : x ∈ seen
    · rw [dropDupAux, if_pos hx]
      calc (dropDupAux seen xs).length ≤ xs.length := (dropDupAux_sublist xs seen).length_le
        _ < (x :: xs).length := by simp
    · rw [dropDupAux, if_neg hx]
      have hnext : ¬ xs.Nodup ∨ ∃ y ∈ xs, y ∈ x :: seen := by
        rcases h with h | ⟨y, hy, hyseen⟩
        · rcases (by simpa [List.nodup_cons] using h : ¬(x ∉ xs ∧ xs.Nodup)) with h'
          by_cases hxxs : x ∈ xs
          · exact Or.inr ⟨x, hxxs, List.mem_cons_self x seen⟩
          · exact Or.inl (fun hnd => h' ⟨hxxs, hnd⟩)
        · rcases List.mem_cons.1 hy with rfl | hy'
          · exact absurd hyseen hx
          · exact Or.inr ⟨y, hy', List.mem_cons_of_mem x hyseen⟩
      simpa using Nat.succ_lt_succ (ih (x :: seen) hnext)

lemma dropDuplicates_sublist (l : List ℚ) : (dropDuplicates l).Sublist l :=
  dropDupAux_sublist l []

lemma dropDuplicates_pairwise {R : ℚ → ℚ → Prop} {l : List ℚ} (h : l.Pairwise R) :
    (dropDuplicates l).Pairwise R :=
  h.sublist (dropDuplicates_sublist l)

lemma dropDuplicates_nodup (l : List ℚ) : (dropDuplicates l).Nodup :=
  dropDupAux_nodup l []

lemma dropDuplicates_pairwise_lt {l : List ℚ} (h : l.Pairwise (· ≤ ·)) :
    (dropDuplicates l).Pairwise (· < ·) :=
  ((dropDuplicates_pairwise h).and (dropDuplicates_nodup l)).imp
    (fun hab => lt_of_le_of_ne hab.1 hab.2)

lemma dropDuplicates_length_lt {l : List ℚ} (h : ¬ l.Nodup) :
    (dropDuplicates l).length < l.length :=
  dropDupAux_length_lt l [] (Or.inl h)

lemma dropDuplicates_cons (x : ℚ) (xs : List ℚ) :
    dropDuplicates (x :: xs) = x :: dropDupAux [x] xs := by
  simp [dropDuplicates, dropDupAux]

lemma getD_le_getD_of_pairwise {α : Type} [Preorder α] {s : List α}
    (hs : s.Pairwise (· ≤ ·)) {i j : ℕ} (d e : α) (hij : i ≤ j) (hj : j < s.length) :
    s.getD i d ≤ s.getD j e := by
  have hi : i < s.length := Nat.lt_of_le_of_lt hij hj
  rw [List.getD_eq_getElem _ _ hi, List.getD_eq_getElem _ _ hj]
  rcases Nat.eq_or_lt_of_le hij with rfl | hlt
  · exact le_refl _
  · exact List.pairwise_iff_getElem.1 hs i j hi hj hlt

lemma length_filter_of_cut {α : Type} (p : α → Bool) :
    ∀ (l : List α) (k : ℕ), k ≤ l.length →
      (∀ j (hj : j < l.length), (p l[j] = true ↔ j < k)) → (l.filter p).length = k := by
  intro l
  induction l with
  | nil => intro k hk _; simpa using (Nat.le_zero.1 hk).symm
  | cons x xs ih =>
    intro k hk hcut
    cases k with
    | zero =>
      have hx : p x = false := by
        have := (hcut 0 (by simp)).not.2 (by omega)
        simpa using this
      rw [List.filter_cons_of_neg (by simp [hx])]
      exact ih 0 (Nat.zero_le _) (fun j hj => by
        have := hcut (j + 1) (by simpa using Nat.succ_lt_succ hj)
        simpa using this)
    | succ k2 =>
      have hx : p x = true := by simpa using (hcut 0 (by simp)).2 (Nat.succ_pos k2)
      rw [List.filter_cons_of_pos hx]
      have := ih k2 (by simpa using Nat.succ_le_succ_iff.1 hk) (fun j hj => by
        have := hcut (j + 1) (by simpa using Nat.succ_lt_succ hj)
        simpa [Nat.succ_lt_succ_iff] using this)
      simp [this]

lemma length_filter_lt {α : Type} (p : α → Bool) :
    ∀ (l : List α) (x : α), x ∈ l → p x = false → (l.filter p).length < l.length := by
  intro l
  induction l with
  | nil => intro x hx; simp at hx
  | cons y ys ih =>
    intro x hx hpx
    rcases List.mem_cons.1 hx with rfl | hx'
    · rw [List.filter_cons_of_neg (by simp [hpx])]
      exact Nat.lt_succ_of_le (List.length_filter_le p ys)
    · cases hpy : p y with
      | true =>
        rw [List.filter_cons_of_pos hpy]
        simpa using Nat.succ_lt_succ (ih x hx' hpx)
      | false =>
        rw [List.filter_cons_of_neg (by simp [hpy])]
        exact Nat.lt_succ_of_lt (ih x hx' hpx)

lemma le_natsMax {l : List ℕ} {x : ℕ} (h : x ∈ l) : x ≤ natsMax l := by
  induction l with
  | nil => simp at h
  | cons y ys ih =>
    rcases List.mem_cons.1 h with rfl | h'
    · exact le_max_left _ _
    · exact le_trans (ih h') (le_max_right _ _)

lemma natsMax_le {l : List ℕ} {c : ℕ} (h : ∀ x ∈ l, x ≤ c) : natsMax l ≤ c := by
  induction l with
  | nil => simp [natsMax]
  | cons y ys ih =>
    simp only [natsMax, List.foldr_cons]
    exact max_le (h y (List.mem_cons_self y ys))
      (ih (fun x hx => h x (List.mem_cons_of_mem y hx)))

lemma natsMin_le {l : List ℕ} {x : ℕ} (h : x ∈ l) : natsMin l ≤ x := by
  induction l with
  | nil => simp at h
  | cons y ys ih =>
    cases ys with
    | nil =>
      have hxy := List.mem_singleton.1 h
      simp [natsMin, hxy]
    | cons z t =>
      rcases List.mem_cons.1 h with rfl | h'
      · simp [natsMin]
      · calc natsMin (y :: z :: t) ≤ natsMin (z :: t) := by simp [natsMin]
          _ ≤ x := ih h'

lemma le_natsMin {l : List ℕ} {c : ℕ} (hne : l ≠ []) (h : ∀ x ∈ l, c ≤ x) :
    c ≤ natsMin l := by
  induction l with
  | nil => exact absurd rfl hne
  | cons y ys ih =>
    cases ys with
    | nil => simpa [natsMin] using h y (List.mem_cons_self y [])
    | cons z t =>
      have h1 : c ≤ y := h y (List.mem_cons_self y (z :: t))
      have h2 : c ≤ natsMin (z :: t) :=
        ih (by simp) (fun x hx => h x (List.mem_cons_of_mem y hx))
      simp only [natsMin]
      exact le_min h1 h2

lemma toNat_floor_le {h : ℚ} (h0 : 0 ≤ h) : (((⌊h⌋).toNat : ℕ) : ℚ) ≤ h := by
  have h1 : (((⌊h⌋).toNat : ℕ) : ℤ) = ⌊h⌋ := Int.toNat_of_nonneg (Int.floor_nonneg.2 h0)
  have h2 : ((((⌊h⌋).toNat : ℕ) : ℤ) : ℚ) ≤ h := by rw [h1]; exact Int.floor_le h
  exact_mod_cast h2

lemma lt_toNat_floor_add_one {h : ℚ} (h0 : 0 ≤ h) : h < (((⌊h⌋).toNat : ℕ) : ℚ) + 1 := by
  have h1 : (((⌊h⌋).toNat : ℕ) : ℤ) = ⌊h⌋ := Int.toNat_of_nonneg (Int.floor_nonneg.2 h0)
  have h2 : h < ((((⌊h⌋).toNat : ℕ) : ℤ) : ℚ) + 1 := by rw [h1]; exact Int.lt_floor_add_one h
  exact_mod_cast h2

lemma toNat_floor_lt_length {s : List ℚ} {h : ℚ} (h0 : 0 ≤ h)
    (hub : h ≤ (s.length : ℚ) - 1) : (⌊h⌋).toNat < s.length := by
  have hq : (((⌊h⌋).toNat : ℕ) : ℚ) + 1 ≤ (s.length : ℚ) :=
    by have := le_trans (toNat_floor_le h0) hub; linarith
  have hn : (⌊h⌋).toNat + 1 ≤ s.length := by exact_mod_cast hq
  omega

lemma interpAt_mono {s : List ℚ} (hs : s.Pairwise (· ≤ ·)) {h k : ℚ}
    (h0 : 0 ≤ h) (hhk : h ≤ k) (hub : k ≤ (s.length : ℚ) - 1) :
    interpAt s h ≤ interpAt s k := by
  have k0 : 0 ≤ k := le_trans h0 hhk
  have hij : (⌊h⌋).toNat ≤ (⌊k⌋).toNat := Int.toNat_le_toNat (Int.floor_le_floor hhk)
  have hjlen : (⌊k⌋).toNat < s.length := toNat_floor_lt_length k0 hub
  have hilen : (⌊h⌋).toNat < s.length := Nat.lt_of_le_of_lt hij hjlen
  have hile : (((⌊h⌋).toNat : ℕ) : ℚ) ≤ h := toNat_floor_le h0
  have hilt : h < (((⌊h⌋).toNat : ℕ) : ℚ) + 1 := lt_toNat_floor_add_one h0
  have hjle : (((⌊k⌋).toNat : ℕ) : ℚ) ≤ k := toNat_floor_le k0
  have hba : s.getD (⌊h⌋).toNat 0 ≤ s.getD ((⌊h⌋).toNat + 1) (s.getD (⌊h⌋).toNat 0) := by
    rcases Nat.lt_or_ge ((⌊h⌋).toNat + 1) s.length with hlt | hge
    · exact getD_le_getD_of_pairwise hs 0 (s.getD (⌊h⌋).toNat 0) (Nat.le_succ _) hlt
    · rw [List.getD_eq_default _ _ hge]
  have hba2 : s.getD (⌊k⌋).toNat 0 ≤ s.getD ((⌊k⌋).toNat + 1) (s.getD (⌊k⌋).toNat 0) := by
    rcases Nat.lt_or_ge ((⌊k⌋).toNat + 1) s.length with hlt | hge
    · exact getD_le_getD_of_pairwise hs 0 (s.getD (⌊k⌋).toNat 0) (Nat.le_succ _) hlt
    · rw [List.getD_eq_default _ _ hge]
  rcases Nat.eq_or_lt_of_le hij with heq | hlt
  · unfold interpAt
    rw [heq]
    have hmul := mul_le_mul_of_nonneg_right
      (sub_le_sub_right (le_trans hhk (le_refl k)) (((⌊k⌋).toNat : ℕ) : ℚ))
      (sub_nonneg.2 hba2)
    have hhk2 : h - (((⌊k⌋).toNat : ℕ) : ℚ) ≤ k - (((⌊k⌋).toNat : ℕ) : ℚ) := by linarith
    nlinarith [sub_nonneg.2 hba2, mul_le_mul_of_nonneg_right hhk2 (sub_nonneg.2 hba2)]
  · have step1 : interpAt s h ≤ s.getD ((⌊h⌋).toNat + 1) (s.getD (⌊h⌋).toNat 0) := by
      unfold interpAt
      have hf1 : h - (((⌊h⌋).toNat : ℕ) : ℚ) ≤ 1 := by linarith
      have hf0 : 0 ≤ s.getD ((⌊h⌋).toNat + 1) (s.getD (⌊h⌋).toNat 0) - s.getD (⌊h⌋).toNat 0 :=
        sub_nonneg.2 hba
      nlinarith [mul_le_mul_of_nonneg_right hf1 hf0]
    have step2 : s.getD ((⌊h⌋).toNat + 1) (s.getD (⌊h⌋).toNat 0) ≤ s.getD (⌊k⌋).toNat 0 :=
      getD_le_getD_of_pairwise hs _ 0 hlt hjlen
    have step3 : s.getD (⌊k⌋).toNat 0 ≤ interpAt s k := by
      unfold interpAt
      have hf0 : 0 ≤ k - (((⌊k⌋).toNat : ℕ) : ℚ) := by linarith
      have hf1 : 0 ≤ s.getD ((⌊k⌋).toNat + 1) (s.getD (⌊k⌋).toNat 0) - s.getD (⌊k⌋).toNat 0 :=
        sub_nonneg.2 hba2
      nlinarith [mul_nonneg hf0 hf1]
    exact le_trans step1 (le_trans step2 step3)

lemma quantile_mono {xs : List ℚ} (hxs : xs ≠ []) {q r : ℚ}
    (h0 : 0 ≤ q) (hqr : q ≤ r) (h1 : r ≤ 1) : quantile xs q ≤ quantile xs r := by
  have hlen : 1 ≤ xs.length := List.length_pos.2 hxs
  have hcast : (1:ℚ) ≤ (xs.length : ℚ) := by exact_mod_cast hlen
  have hn : (0:ℚ) ≤ (xs.length : ℚ) - 1 := by linarith
  have hsorted : (xs.insertionSort (· ≤ ·)).Pairwise (· ≤ ·) :=
    List.sorted_insertionSort (· ≤ ·) xs
  unfold quantile
  apply interpAt_mono hsorted (mul_nonneg h0 hn) (mul_le_mul_of_nonneg_right hqr hn)
  rw [List.length_insertionSort]
  calc r * ((xs.length : ℚ) - 1) ≤ 1 * ((xs.length : ℚ) - 1) :=
        mul_le_mul_of_nonneg_right h1 hn
    _ = (xs.length : ℚ) - 1 := one_mul _

lemma quantile_zero_mem {xs : List ℚ} (hxs : xs ≠ []) : quantile xs 0 ∈ xs := by
  have hlen : 0 < (xs.insertionSort (· ≤ ·)).length := by
    rw [List.length_insertionSort]; exact List.length_pos.2 hxs
  have h1 : quantile xs 0 = (xs.insertionSort (· ≤ ·)).getD 0 0 := by
    unfold quantile interpAt
    rw [zero_mul]
    norm_num
  rw [h1, List.getD_eq_getElem _ _ hlen]
  exact (List.perm_insertionSort (· ≤ ·) xs).subset (List.getElem_mem hlen)

lemma ratERat_le_ratERat {a b : ℚ} (h : a ≤ b) : ratERat a ≤ ratERat b := by
  simp only [ratERat, WithBot.coe_le_coe, WithTop.coe_le_coe]
  exact h

lemma ratERat_lt_ratERat {a b : ℚ} (h : a < b) : ratERat a < ratERat b := by
  simp only [ratERat, WithBot.coe_lt_coe, WithTop.coe_lt_coe]
  exact h

lemma ratERat_lt_top (a : ℚ) : ratERat a < ⊤ := by
  have : ((⊤ : WithTop ℚ) : ERat) = (⊤ : ERat) := rfl
  rw [ratERat, ← this, WithBot.coe_lt_coe]
  exact WithTop.coe_lt_top a

lemma ratERat_ne_bot (a : ℚ) : ratERat a ≠ ⊥ := WithBot.coe_ne_bot

lemma ratERat_ne_top (a : ℚ) : ratERat a ≠ ⊤ := ne_of_lt (ratERat_lt_top a)

lemma not_top_le_ratERat (a : ℚ) : ¬ ((⊤ : ERat) ≤ ratERat a) := by
  rw [top_le_iff]
  exact ratERat_ne_top a

lemma length_setEnds (l : List ERat) : (setEnds l).length = l.length := by
  simp [setEnds]

lemma setEnds_singleton (a : ERat) : setEnds [a] = [⊤] := rfl

lemma setEnds_cons_cons (a b : ERat) (t : List ERat) :
    setEnds (a :: b :: t) = ⊥ :: (b :: t).set t.length ⊤ := by
  show ((a :: b :: t).set 0 ⊥).set (((a :: b :: t).set 0 ⊥).length - 1) ⊤ = _
  simp [List.set]

lemma getD_set_self {α : Type} {l : List α} {k : ℕ} (x d : α) (hk : k < l.length) :
    (l.set k x).getD k d = x := by
  rw [List.getD_eq_getElem _ _ (by simpa using hk)]
  exact List.getElem_set_self _

lemma pairwise_set_last_top :
    ∀ (l : List ERat), l.Pairwise (· ≤ ·) → (l.set (l.length - 1) ⊤).Pairwise (· ≤ ·)
  | [], _ => by simp
  | [a], _ => by simp
  | a :: b :: t, h => by
    have htail : (b :: t).Pairwise (· ≤ ·) := h.of_cons
    have hrec := pairwise_set_last_top (b :: t) htail
    have hidx : (a :: b :: t).length - 1 = t.length + 1 := by simp
    rw [hidx, List.set]
    refine List.Pairwise.cons ?_ ?_
    · intro y hy
      rcases List.mem_or_eq_of_mem_set hy with hy2 | rfl
      · exact (List.pairwise_cons.1 h).1 y hy2
      · exact le_top
    · have hidx2 : (b :: t).length - 1 = t.length := by simp
      rw [hidx2] at hrec
      exact hrec

lemma pairwise_setEnds {l : List ERat} (h : l.Pairwise (· ≤ ·)) :
    (setEnds l).Pairwise (· ≤ ·) := by
  cases l with
  | nil => simp [setEnds]
  | cons a t =>
    cases t with
    | nil => simp [setEnds_singleton]
    | cons b t2 =>
      rw [setEnds_cons_cons]
      refine List.Pairwise.cons (fun y _ => bot_le) ?_
      have hrec := pairwise_set_last_top (b :: t2) h.of_cons
      have hidx : (b :: t2).length - 1 = t2.length := by simp
      rw [hidx] at hrec
      exact hrec

lemma setEnds_last {l : List ERat} (hl : l ≠ []) :
    (setEnds l).getD (l.length - 1) ⊥ = ⊤ := by
  have hpos : 0 < l.length := List.length_pos.2 hl
  unfold setEnds
  have hidx : (l.set 0 ⊥).length - 1 = l.length - 1 := by simp
  rw [hidx]
  exact getD_set_self _ _ (by simpa using (by omega : l.length - 1 < l.length))

lemma computeBreakpoints_eq {refVals : List ℚ} (h2 : refVals ≠ []) (nP : ℕ) :
    computeBreakpoints refVals nP =
      setEnds ((dropDuplicates ((linspace nP).map (quantile refVals))).map ratERat) := by
  simp [computeBreakpoints, h2]

lemma quantList_pairwise {refVals : List ℚ} (h2 : refVals ≠ []) {nP : ℕ} (h1 : 1 ≤ nP) :
    ((linspace nP).map (quantile refVals)).Pairwise (· ≤ ·) := by
  unfold linspace
  rw [List.pairwise_map, List.pairwise_map, List.pairwise_iff_get]
  intro i j hij
  simp only [List.get_eq_getElem, List.getElem_range]
  have hnP : (0:ℚ) < (nP : ℚ) := by exact_mod_cast Nat.lt_of_lt_of_le Nat.zero_lt_one h1
  have hj2 : j.1 ≤ nP := by
    have := j.isLt
    simp only [List.length_range] at this
    omega
  apply quantile_mono h2
  · exact div_nonneg (Nat.cast_nonneg _) (le_of_lt hnP)
  · rw [div_le_div_iff_of_pos_right hnP]
    exact_mod_cast le_of_lt (Fin.lt_iff_val_lt_val.1 hij)
  · rw [div_le_one hnP]
    exact_mod_cast hj2

lemma quantList_cons (refVals : List ℚ) (nP : ℕ) :
    ∃ t, (linspace nP).map (quantile refVals) = quantile refVals 0 :: t := by
  refine ⟨(((List.range nP).map Nat.succ).map (fun i : ℕ => (i : ℚ) / (nP : ℚ))).map
    (quantile refVals), ?_⟩
  rw [linspace, List.range_succ_eq_map, List.map_cons, List.map_cons]
  congr 1
  norm_num

lemma computeBreakpoints_pairwise {refVals : List ℚ} {nP : ℕ}
    (h1 : 1 ≤ nP) (h2 : refVals ≠ []) :
    (computeBreakpoints refVals nP).Pairwise (· ≤ ·) := by
  rw [computeBreakpoints_eq h2]
  apply pairwise_setEnds
  exact (dropDuplicates_pairwise (quantList_pairwise h2 h1)).map ratERat
    (fun a b hab => ratERat_le_ratERat hab)

lemma computeBreakpoints_length_le {refVals : List ℚ} (h2 : refVals ≠ []) (nP : ℕ) :
    (computeBreakpoints refVals nP).length ≤ nP + 1 := by
  rw [computeBreakpoints_eq h2, length_setEnds, List.length_map]
  calc (dropDuplicates ((linspace nP).map (quantile refVals))).length
      ≤ ((linspace nP).map (quantile refVals)).length :=
        (dropDuplicates_sublist _).length_le
    _ = nP + 1 := by rw [List.length_map, linspace, List.length_map, List.length_range]

lemma computeBreakpoints_length_pos (refVals : List ℚ) (nP : ℕ) :
    1 ≤ (computeBreakpoints refVals nP).length := by
  by_cases h2 : refVals = []
  · subst h2; simp [computeBreakpoints]
  · rw [computeBreakpoints_eq h2, length_setEnds, List.length_map]
    obtain ⟨t, ht⟩ := quantList_cons refVals nP
    rw [ht, dropDuplicates_cons]
    simp

lemma computeBreakpoints_last (refVals : List ℚ) (nP : ℕ) :
    (computeBreakpoints refVals nP).getD ((computeBreakpoints refVals nP).length - 1) ⊥ = ⊤ := by
  by_cases h2 : refVals = []
  · subst h2; simp [computeBreakpoints]
  · have hne : (dropDuplicates ((linspace nP).map (quantile refVals))).map ratERat ≠ [] := by
      obtain ⟨t, ht⟩ := quantList_cons refVals nP
      rw [ht, dropDuplicates_cons]
      simp
    rw [computeBreakpoints_eq h2, length_setEnds, List.length_map]
    have := setEnds_last hne
    rw [List.length_map] at this
    exact this

lemma computeBreakpoints_shape {refVals : List ℚ} {nP : ℕ} (h2 : refVals ≠ [])
    (hlen : 2 ≤ (computeBreakpoints refVals nP).length) :
    ∃ d0 d1 rest, dropDuplicates ((linspace nP).map (quantile refVals)) = d0 :: d1 :: rest ∧
      computeBreakpoints refVals nP =
        ⊥ :: ((ratERat d1 :: rest.map ratERat).set rest.length ⊤) := by
  have hdl : 2 ≤ (dropDuplicates ((linspace nP).map (quantile refVals))).length := by
    rw [computeBreakpoints_eq h2, length_setEnds, List.length_map] at hlen
    exact hlen
  rcases hsh : dropDuplicates ((linspace nP).map (quantile refVals)) with _ | ⟨d0, _ | ⟨d1, rest⟩⟩
  · rw [hsh] at hdl; simp at hdl
  · rw [hsh] at hdl; simp at hdl
  · refine ⟨d0, d1, rest, rfl, ?_⟩
    rw [computeBreakpoints_eq h2, hsh]
    simp only [List.map_cons]
    rw [setEnds_cons_cons]
    simp

lemma computeBreakpoints_head {refVals : List ℚ} {nP : ℕ} (h2 : refVals ≠ [])
    (hlen : 2 ≤ (computeBreakpoints refVals nP).length) :
    (computeBreakpoints refVals nP).head? = some ⊥ := by
  obtain ⟨d0, d1, rest, _, hb⟩ := computeBreakpoints_shape h2 hlen
  rw [hb]
  rfl

/-- Claim C3: portfolio assignment buckets values into left-closed/right-open
intervals against the breakpoint sequence: whenever
`bins[i] ≤ v < bins[i+1]` (sorted bins starting at `-Inf`), the value `v`
receives label `i+1`, so a value equal to an interior breakpoint falls into
the interval that starts at that breakpoint. -/
theorem claim_C3 (bins : List ERat) (v : ℚ) (i : ℕ)
    (hsort : bins.Pairwise (· ≤ ·)) (hhead : bins.head? = some ⊥)
    (hi : i + 1 < bins.length)
    (hlo : bins.getD i ⊥ ≤ ratERat v) (hhi : ratERat v < bins.getD (i + 1) ⊥) :
    assignPortfolio bins v = some (i + 1) := by
  have hb0 : bins.getD 0 ⊥ = ⊥ := by
    cases bins with
    | nil => simp at hhead
    | cons a t =>
      have ha : a = ⊥ := by simpa using hhead
      simp [ha]
  have hguard : ¬ (ratERat v = bins.getD 0 ⊥) := by
    rw [hb0]; exact ratERat_ne_bot v
  have hcount : (bins.filter (fun b => decide (b ≤ ratERat v))).length = i + 1 := by
    apply length_filter_of_cut _ bins (i + 1) (le_of_lt hi)
    intro j hj
    have hjget : bins.getD j ⊥ = bins[j] := List.getD_eq_getElem _ _ hj
    constructor
    · intro hple
      by_contra hge
      push_neg at hge
      have h1 : bins.getD (i + 1) ⊥ ≤ bins.getD j ⊥ :=
        getD_le_getD_of_pairwise hsort ⊥ ⊥ hge hj
      have h2 : bins[j] ≤ ratERat v := of_decide_eq_true hple
      rw [← hjget] at h2
      exact absurd (le_trans h1 h2) (not_le.2 hhi)
    · intro hjlt
      have h1 : bins.getD j ⊥ ≤ bins.getD i ⊥ :=
        getD_le_getD_of_pairwise hsort ⊥ ⊥ (by omega) (by omega)
      rw [hjget] at h1
      exact decide_eq_true (le_trans h1 hlo)
  have hids : pdCutIds bins v = i + 1 := by
    unfold pdCutIds
    rw [if_neg hguard, hcount]
  unfold assignPortfolio
  rw [hids, if_neg (by push_neg; exact ⟨by omega, by omega⟩)]

/-- Witness for C3 at the spec's end-to-end example: breakpoints
`[-Inf, 15, +Inf]`, where 15 receives label 2 (boundary goes up) and 10
receives label 1. -/
theorem claim_C3_witness :
    ([⊥, ratERat 15, ⊤] : List ERat).Pairwise (· ≤ ·) ∧
    ([⊥, ratERat 15, ⊤] : List ERat).head? = some ⊥ ∧
    assignPortfolio [⊥, ratERat 15, ⊤] 15 = some 2 ∧
    assignPortfolio [⊥, ratERat 15, ⊤] 10 = some 1 ∧
    assignPortfolio [⊥, ratERat 15, ⊤] 20 = some 2 := by
  refine ⟨by decide, by decide, ?_, by decide, by decide⟩
  exact claim_C3 [⊥, ratERat 15, ⊤] 15 1 (by decide) (by decide) (by decide)
    (by decide) (by decide)

/-- Claim C5 (amended): when the computed breakpoints keep at least two
entries, every value receives a label in `[1, len(b)-1]`, and a value that is
a lower bound of the reference universe (in particular the minimum input when
the reference values are among the inputs) receives label 1.  (As stated the
claim fails: degenerate breakpoints of length one assign no label, see the
counterexample.) -/
theorem claim_C5_amended (refVals : List ℚ) (nP : ℕ)
    (h1 : 1 ≤ nP) (h2 : refVals ≠ [])
    (hlen : 2 ≤ (computeBreakpoints refVals nP).length) :
    (∀ w : ℚ, ∃ k, assignPortfolio (computeBreakpoints refVals nP) w = some k ∧
        1 ≤ k ∧ k ≤ (computeBreakpoints refVals nP).length - 1) ∧
    (∀ v : ℚ, (∀ r ∈ refVals, v ≤ r) →
        assignPortfolio (computeBreakpoints refVals nP) v = some 1) := by
  obtain ⟨d0, d1, rest, hd, hb⟩ := computeBreakpoints_shape h2 hlen
  have hbot : ⊥ ∈ computeBreakpoints refVals nP := by
    rw [hb]; exact List.mem_cons_self _ _
  have htop : ⊤ ∈ computeBreakpoints refVals nP := by
    rw [hb]
    refine List.mem_cons_of_mem _ ?_
    have hkk : rest.length < ((ratERat d1 :: rest.map ratERat).set rest.length ⊤).length := by
      simp
    have hset := List.getElem_set_self (l := ratERat d1 :: rest.map ratERat)
      (i := rest.length) (a := (⊤ : ERat)) hkk
    have hmem := List.getElem_mem hkk
    rw [hset] at hmem
    exact hmem
  have hguard : ∀ w : ℚ, ¬ (ratERat w = (computeBreakpoints refVals nP).getD 0 ⊥) := by
    intro w
    rw [hb]
    simpa using ratERat_ne_bot w
  constructor
  · intro w
    have hpos : 1 ≤ ((computeBreakpoints refVals nP).filter
        (fun x => decide (x ≤ ratERat w))).length := by
      have hmem : ⊥ ∈ (computeBreakpoints refVals nP).filter
          (fun x => decide (x ≤ ratERat w)) :=
        List.mem_filter.2 ⟨hbot, by simp⟩
      exact List.length_pos.2 (List.ne_nil_of_mem hmem)
    have hlt : ((computeBreakpoints refVals nP).filter
        (fun x => decide (x ≤ ratERat w))).length <
        (computeBreakpoints refVals nP).length :=
      length_filter_lt _ _ ⊤ htop (by simpa using not_top_le_ratERat w)
    have hids : pdCutIds (computeBreakpoints refVals nP) w =
        ((computeBreakpoints refVals nP).filter (fun x => decide (x ≤ ratERat w))).length := by
      unfold pdCutIds
      rw [if_neg (hguard w)]
    refine ⟨((computeBreakpoints refVals nP).filter
      (fun x => decide (x ≤ ratERat w))).length, ?_, hpos, by omega⟩
    unfold assignPortfolio
    rw [hids, if_neg (by push_neg; exact ⟨by omega, by omega⟩)]
  · intro v hv
    have hd0 : d0 = quantile refVals 0 := by
      obtain ⟨t, ht⟩ := quantList_cons refVals nP
      rw [ht, dropDuplicates_cons] at hd
      injection hd with hA hB
      exact hA.symm
    have hvd0 : v ≤ d0 := hd0 ▸ hv (quantile refVals 0) (quantile_zero_mem h2)
    have hplt : (d0 :: d1 :: rest).Pairwise (· < ·) := by
      rw [← hd]
      exact dropDuplicates_pairwise_lt (quantList_pairwise h2 h1)
    have hvlt : ∀ z ∈ d1 :: rest, v < z := fun z hz =>
      lt_of_le_of_lt hvd0 ((List.pairwise_cons.1 hplt).1 z hz)
    have htail : ∀ y ∈ (ratERat d1 :: rest.map ratERat).set rest.length ⊤,
        ratERat v < y := by
      intro y hy
      rcases List.mem_or_eq_of_mem_set hy with hy2 | rfl
      · rcases List.mem_cons.1 hy2 with rfl | hy3
        · exact ratERat_lt_ratERat (hvlt d1 (List.mem_cons_self _ _))
        · obtain ⟨z, hz, rfl⟩ := List.mem_map.1 hy3
          exact ratERat_lt_ratERat (hvlt z (List.mem_cons_of_mem _ hz))
      · exact ratERat_lt_top v
    have hfilter : ((computeBreakpoints refVals nP).filter
        (fun x => decide (x ≤ ratERat v))).length = 1 := by
      rw [hb, List.filter_cons_of_pos (by simp)]
      have hnil : ((ratERat d1 :: rest.map ratERat).set rest.length ⊤).filter
          (fun x => decide (x ≤ ratERat v)) = [] := by
        rw [List.filter_eq_nil_iff]
        intro y hy
        simpa using not_le.2 (htail y hy)
      rw [hnil]
      rfl
    have hids : pdCutIds (computeBreakpoints refVals nP) v = 1 := by
      unfold pdCutIds
      rw [if_neg (hguard v), hfilter]
    unfold assignPortfolio
    rw [hids, if_neg (by push_neg; exact ⟨by omega, by omega⟩)]

/-- Counterexample to C5 as stated: breakpoints produced from the tied
reference set `[7]` collapse to the single entry `+Inf`, and then no value
receives any label (pandas returns NaN), so "every value receives some
label" fails. -/
theorem claim_C5_counterexample :
    1 ≤ 2 ∧ ([(7:ℚ)] ≠ []) ∧
    assignPortfolio (computeBreakpoints [7] 2) 5 = none := by decide

/-- Witness for C5 (amended) on the reference set `[1,2,3,4]` with two
portfolios: every value gets a label in range and the minimum gets
label 1. -/
theorem claim_C5_witness :
    1 ≤ 2 ∧ ([(1:ℚ), 2, 3, 4] ≠ []) ∧
    2 ≤ (computeBreakpoints [1, 2, 3, 4] 2).length ∧
    assignPortfolio (computeBreakpoints [1, 2, 3, 4] 2) 1 = some 1 ∧
    (∃ k, assignPortfolio (computeBreakpoints [1, 2, 3, 4] 2) 99 = some k ∧
      1 ≤ k ∧ k ≤ (computeBreakpoints [1, 2, 3, 4] 2).length - 1) := by
  refine ⟨by decide, by decide, by decide, ?_, ?_⟩
  · exact (claim_C5_amended [1, 2, 3, 4] 2 (by decide) (by decide) (by decide)).2
      1 (by decide)
  · exact (claim_C5_amended [1, 2, 3, 4] 2 (by decide) (by decide) (by decide)).1 99

/-- Counterexample to C1 as stated: for the tied reference set `[0]` with
`nPortfolios = 1`, duplicate removal leaves one boundary; the `-Inf`
overwrite is then itself overwritten by `+Inf`, so the first element of the
result is `+Inf`, not `-Inf`. -/
theorem claim_C1_counterexample :
    1 ≤ 1 ∧ ([(0:ℚ)] ≠ []) ∧ (computeBreakpoints [0] 1).head? ≠ some ⊥ := by decide

/-- Claim C1 (amended): for `nPortfolios ≥ 1` and a non-empty reference set,
the breakpoints are a non-decreasing sequence of length between 1 and
`nPortfolios+1` whose last element is `+Inf`; its first element is `-Inf`
whenever duplicate removal leaves at least two boundaries (in the degenerate
one-boundary case the single entry is `+Inf`). -/
theorem claim_C1_amended (refVals : List ℚ) (nP : ℕ) (h1 : 1 ≤ nP) (h2 : refVals ≠ []) :
    (computeBreakpoints refVals nP).Chain' (· ≤ ·) ∧
    1 ≤ (computeBreakpoints refVals nP).length ∧
    (computeBreakpoints refVals nP).length ≤ nP + 1 ∧
    (computeBreakpoints refVals nP).getD ((computeBreakpoints refVals nP).length - 1) ⊥ = ⊤ ∧
    (2 ≤ (computeBreakpoints refVals nP).length →
      (computeBreakpoints refVals nP).head? = some ⊥) :=
  ⟨(computeBreakpoints_pairwise h1 h2).chain',
   computeBreakpoints_length_pos refVals nP,
   computeBreakpoints_length_le h2 nP,
   computeBreakpoints_last refVals nP,
   fun hlen => computeBreakpoints_head h2 hlen⟩

/-- Witness for C1 (amended) at the reference set `[10, 20, 30]` with two
portfolios (breakpoints `[-Inf, 20, +Inf]`). -/
theorem claim_C1_witness :
    1 ≤ 2 ∧ ([(10:ℚ), 20, 30] ≠ []) ∧
    ((computeBreakpoints [10, 20, 30] 2).Chain' (· ≤ ·) ∧
      1 ≤ (computeBreakpoints [10, 20, 30] 2).length ∧
      (computeBreakpoints [10, 20, 30] 2).length ≤ 2 + 1 ∧
      (computeBreakpoints [10, 20, 30] 2).getD
        ((computeBreakpoints [10, 20, 30] 2).length - 1) ⊥ = ⊤ ∧
      (2 ≤ (computeBreakpoints [10, 20, 30] 2).length →
        (computeBreakpoints [10, 20, 30] 2).head? = some ⊥)) :=
  ⟨by decide, by decide, claim_C1_amended [10, 20, 30] 2 (by decide) (by decide)⟩

/-- Claim C2: when the quantile boundaries contain duplicates, duplicate
removal shrinks the breakpoint list, so the effective number of portfolios
(`len(b) - 1`) drops below `nPortfolios`; the computation still completes
normally (the result is a breakpoint list, non-empty with last entry
`+Inf`) — no error is raised. -/
theorem claim_C2 (refVals : List ℚ) (nP : ℕ) (h1 : 1 ≤ nP) (h2 : refVals ≠ [])
    (hdup : ¬ ((linspace nP).map (quantile refVals)).Nodup) :
    1 ≤ (computeBreakpoints refVals nP).length ∧
    (computeBreakpoints refVals nP).length - 1 < nP ∧
    (computeBreakpoints refVals nP).getD ((computeBreakpoints refVals nP).length - 1) ⊥ = ⊤ := by
  refine ⟨computeBreakpoints_length_pos refVals nP, ?_, computeBreakpoints_last refVals nP⟩
  have h3 : (dropDuplicates ((linspace nP).map (quantile refVals))).length <
      ((linspace nP).map (quantile refVals)).length := dropDuplicates_length_lt hdup
  have h4 : ((linspace nP).map (quantile refVals)).length = nP + 1 := by
    rw [List.length_map, linspace, List.length_map, List.length_range]
  have h5 : (computeBreakpoints refVals nP).length =
      (dropDuplicates ((linspace nP).map (quantile refVals))).length := by
    rw [computeBreakpoints_eq h2, length_setEnds, List.length_map]
  have h6 := computeBreakpoints_length_pos refVals nP
  omega

/-- Witness for C2 on the reference set `[1, 1, 1, 2]` with two portfolios:
the three quantile boundaries are `[1, 1, 2]` (duplicated), and the
effective number of portfolios drops to 1 < 2. -/
theorem claim_C2_witness :
    1 ≤ 2 ∧ ([(1:ℚ), 1, 1, 2] ≠ []) ∧
    ¬ ((linspace 2).map (quantile [1, 1, 1, 2])).Nodup ∧
    (1 ≤ (computeBreakpoints [1, 1, 1, 2] 2).length ∧
      (computeBreakpoints [1, 1, 1, 2] 2).length - 1 < 2 ∧
      (computeBreakpoints [1, 1, 1, 2] 2).getD
        ((computeBreakpoints [1, 1, 1, 2] 2).length - 1) ⊥ = ⊤) :=
  ⟨by decide, by decide, by decide,
    claim_C2 [1, 1, 1, 2] 2 (by decide) (by decide) (by decide)⟩

/-- Counterexample to C4: on an empty reference universe the breakpoint
computation does not fail — pandas quantiles of an empty series are NaN,
`drop_duplicates` collapses them to one entry and the end overwrites leave
the single breakpoint `+Inf`, which the code silently returns; every
assignment against it is then a missing label, not an error. -/
theorem claim_C4_counterexample :
    computeBreakpoints [] 5 = [⊤] ∧
    assignPortfolio (computeBreakpoints [] 5) 0 = none := by decide

/-- Claim C4 (amended): for an empty reference universe the breakpoint
computation silently returns the degenerate list `[+Inf]` (no
`InsufficientData` error is raised), and portfolio assignment then yields a
missing label for every value. -/
theorem claim_C4_amended (nP : ℕ) :
    computeBreakpoints [] nP = [⊤] ∧
    ∀ v : ℚ, assignPortfolio (computeBreakpoints [] nP) v = none := by
  have h1 : computeBreakpoints [] nP = [⊤] := rfl
  refine ⟨h1, ?_⟩
  intro v
  rw [h1]
  have hids : pdCutIds [⊤] v = 0 := by
    unfold pdCutIds
    rw [if_neg (by simpa using ratERat_ne_top v)]
    rw [List.filter_cons_of_neg (by simpa using not_top_le_ratERat v), List.filter_nil]
    rfl
  unfold assignPortfolio
  rw [hids]
  simp

/-- Claim C6: on a cross-section in which the secondary variable (bm) is
perfectly correlated with the primary (me), the dependent sort — which
recomputes the bm reference universe and breakpoints inside each me
partition — produces different combined-group population counts than the
independent sort, and the recomputed partition breakpoints indeed differ
from the global ones. -/
theorem claim_C6 :
    indepCount c6Data 2 1 1 = 2 ∧ depCount c6Data 2 1 1 = 1 ∧
    indepCount c6Data 2 1 1 ≠ depCount c6Data 2 1 1 ∧
    computeBreakpoints (refValues (depPartition c6Data 2 1) Obs.bm) 2 ≠
      computeBreakpoints (refValues c6Data Obs.bm) 2 := by decide

/-- Counterexample to C7 as stated: the SMB factor of `factors_replicated`
longs the small portfolios, i.e. it is mean(label 1) − mean(label 2) =
mean(bottom) − mean(top), the negative of the claimed
mean(top) − mean(bottom) formula. -/
theorem claim_C7_counterexample :
    smb_of [(1, 2/100), (2, 7/100)] ≠ specLongShort [(1, 2/100), (2, 7/100)] := by decide

/-- Claim C7 (amended): the value premium equals mean(return at the maximum
label present) − mean(return at the minimum label present); the HML factor
(hard-coded labels 3 and 1) equals the same formula whenever labels 1 and 3
are present and all labels lie in `[1,3]`; the SMB factor instead equals
mean(minimum label) − mean(maximum label) — the long/short direction is
per-factor. -/
theorem claim_C7_amended (rows rows2 : List (ℕ × ℚ))
    (ha1 : 1 ∈ labelCol rows) (ha3 : 3 ∈ labelCol rows)
    (hab : ∀ l ∈ labelCol rows, 1 ≤ l ∧ l ≤ 3)
    (hb1 : 1 ∈ labelCol rows2) (hb2 : 2 ∈ labelCol rows2)
    (hbb : ∀ l ∈ labelCol rows2, 1 ≤ l ∧ l ≤ 2) :
    value_premium_of rows = specLongShort rows ∧
    hml_of rows = specLongShort rows ∧
    smb_of rows2 = meanQ (retsWith rows2 (natsMin (labelCol rows2))) -
      meanQ (retsWith rows2 (natsMax (labelCol rows2))) := by
  have hmax : natsMax (labelCol rows) = 3 :=
    le_antisymm (natsMax_le (fun x hx => (hab x hx).2)) (le_natsMax ha3)
  have hmin : natsMin (labelCol rows) = 1 :=
    le_antisymm (natsMin_le ha1)
      (le_natsMin (List.ne_nil_of_mem ha1) (fun x hx => (hab x hx).1))
  have hmax2 : natsMax (labelCol rows2) = 2 :=
    le_antisymm (natsMax_le (fun x hx => (hbb x hx).2)) (le_natsMax hb2)
  have hmin2 : natsMin (labelCol rows2) = 1 :=
    le_antisymm (natsMin_le hb1)
      (le_natsMin (List.ne_nil_of_mem hb1) (fun x hx => (hbb x hx).1))
  refine ⟨rfl, ?_, ?_⟩
  · rw [specLongShort, hmax, hmin]
    rfl
  · rw [hmin2, hmax2]
    rfl

/-- Witness for C7 (amended) at the spec's example table
{1: 0.02, 2: 0.03, 3: 0.07}: the long–short spread is 0.05, and the SMB
direction on {1: 0.02, 2: 0.07} is the negative spread −0.05. -/
theorem claim_C7_witness :
    hml_of [(1, 2/100), (2, 3/100), (3, 7/100)] =
      specLongShort [(1, 2/100), (2, 3/100), (3, 7/100)] ∧
    specLongShort [(1, 2/100), (2, 3/100), (3, 7/100)] = 5/100 ∧
    smb_of [(1, 2/100), (2, 7/100)] = -(5/100) := by
  refine ⟨(claim_C7_amended [(1, 2/100), (2, 3/100), (3, 7/100)] [(1, 2/100), (2, 7/100)]
    (by decide) (by decide) (by decide) (by decide) (by decide) (by decide)).2.1,
    by decide, by decide⟩

/-- Claim C8: for a non-empty portfolio with non-zero total weight, the
code's value-weighted return (`np.average` with weights) equals the spec's
`Σ(r·w)/Σ(w)`, and on the spec's example portfolio
{(ret=0.05, w=100), (ret=0.10, w=50)} it rounds to 0.0667 at 4 decimals. -/
theorem claim_C8 (rows : List (ℚ × ℚ)) (hne : rows ≠ [])
    (hw : (rows.map Prod.snd).sum ≠ 0) :
    portfolioReturn rows = valueWeightedMean rows ∧
    round4 (portfolioReturn [(1/20, 100), (1/10, 50)]) = 667/10000 := by
  have hsum1 : ∀ l : List (ℚ × ℚ),
      (l.map (fun p => p.1 * p.2)).sum = l.foldr (fun p acc => p.1 * p.2 + acc) 0 := by
    intro l
    induction l with
    | nil => rfl
    | cons p t ih => simp only [List.map_cons, List.sum_cons, List.foldr_cons, ih]
  have hsum2 : ∀ l : List (ℚ × ℚ),
      (l.map Prod.snd).sum = l.foldr (fun p acc => p.2 + acc) 0 := by
    intro l
    induction l with
    | nil => rfl
    | cons p t ih => simp only [List.map_cons, List.sum_cons, List.foldr_cons, ih]
  constructor
  · unfold portfolioReturn valueWeightedMean
    rw [hsum1, hsum2]
  · decide

/-- Witness for C8 at the spec's example portfolio. -/
theorem claim_C8_witness :
    ([((1:ℚ)/20, (100:ℚ)), (1/10, 50)] ≠ []) ∧
    (([((1:ℚ)/20, (100:ℚ)), (1/10, 50)].map Prod.snd).sum ≠ 0) ∧
    portfolioReturn [(1/20, 100), (1/10, 50)] = valueWeightedMean [(1/20, 100), (1/10, 50)] ∧
    round4 (portfolioReturn [(1/20, 100), (1/10, 50)]) = 667/10000 :=
  ⟨by decide, by decide,
    (claim_C8 [(1/20, 100), (1/10, 50)] (by decide) (by decide)).1,
    (claim_C8 [(1/20, 100), (1/10, 50)] (by decide) (by decide)).2⟩

/-- Claim C9: every row surviving the book-to-market staleness step carries
a present, forward-filled `comp_date` strictly later than its date minus 12
months (and a present `bm`); a forward-filled row whose carried value is
older (or absent) is excluded. -/
theorem claim_C9 (rows : List FirmRow) :
    (∀ r ∈ data_for_sorts_firm rows,
      (∃ cd, r.compDate = some cd ∧ r.date - 12 < cd) ∧ r.bm.isSome = true) ∧
    (∀ r ∈ ffillFirm none none rows, (∀ cd, r.compDate = some cd → cd ≤ r.date - 12) →
      r ∉ data_for_sorts_firm rows) := by
  constructor
  · intro r hr
    have hk : keepFresh r = true := (List.mem_filter.1 hr).2
    unfold keepFresh at hk
    rcases hcd : r.compDate with _ | cd
    · rw [hcd] at hk; simp at hk
    · rcases hbm : r.bm with _ | b
      · rw [hcd, hbm] at hk; simp at hk
      · rw [hcd, hbm] at hk
        simp only [decide_eq_true_eq] at hk
        exact ⟨⟨cd, rfl, hk⟩, rfl⟩
  · intro r hr hstale hmem
    have hk : keepFresh r = true := (List.mem_filter.1 hmem).2
    unfold keepFresh at hk
    rcases hcd : r.compDate with _ | cd
    · rw [hcd] at hk; simp at hk
    · rcases hbm : r.bm with _ | b
      · rw [hcd, hbm] at hk; simp at hk
      · rw [hcd, hbm] at hk
        simp only [decide_eq_true_eq] at hk
        exact absurd (hstale cd hcd) (not_le.2 hk)

/-- Witness for C9: a firm's rows at months 0 (fresh bm), 6 (forward-filled)
and 20 (stale): the month-6 row survives with `comp_date = 0 > 6 - 12`, the
month-20 forward-filled row is excluded since `0 ≤ 20 - 12`. -/
theorem claim_C9_witness :
    ((∃ cd, (FirmRow.mk 6 (some 1) (some 0)).compDate = some cd ∧
        (FirmRow.mk 6 (some 1) (some 0)).date - 12 < cd) ∧
      (FirmRow.mk 6 (some 1) (some 0)).bm.isSome = true) ∧
    (FirmRow.mk 20 (some 1) (some 0)) ∉
      data_for_sorts_firm [⟨0, some 1, some 0⟩, ⟨6, none, none⟩, ⟨20, none, none⟩] :=
  ⟨(claim_C9 [⟨0, some 1, some 0⟩, ⟨6, none, none⟩, ⟨20, none, none⟩]).1
      (FirmRow.mk 6 (some 1) (some 0)) (by decide),
   (claim_C9 [⟨0, some 1, some 0⟩, ⟨6, none, none⟩, ⟨20, none, none⟩]).2
      (FirmRow.mk 20 (some 1) (some 0)) (by decide)
      (fun cd hcd => by injection hcd with h2; subst h2; decide)⟩

/-- Claim C10: a period's breakpoints depend only on the reference-universe
(NYSE) values, and each observation's label only on those breakpoints and
its own value: replacing one non-NYSE observation by any other non-NYSE
observation leaves the breakpoints and every other observation's label
unchanged. -/
theorem claim_C10 (l1 l2 : List Obs) (o o2 : Obs) (f : Obs → ℚ) (nP : ℕ)
    (h : o.nyse = false) (h2 : o2.nyse = false) :
    computeBreakpoints (refValues (l1 ++ o :: l2) f) nP =
      computeBreakpoints (refValues (l1 ++ o2 :: l2) f) nP ∧
    ∀ p : Obs, assign_portfolio (l1 ++ o :: l2) f nP p =
      assign_portfolio (l1 ++ o2 :: l2) f nP p := by
  have href : refValues (l1 ++ o :: l2) f = refValues (l1 ++ o2 :: l2) f := by
    unfold refValues
    rw [List.filter_append, List.filter_append,
      List.filter_cons_of_neg (by simp [h]), List.filter_cons_of_neg (by simp [h2])]
  exact ⟨by rw [href], fun p => by unfold assign_portfolio; rw [href]⟩

/-- Witness for C10: changing a non-NYSE observation's sorting value from 7
to 99 leaves the NYSE breakpoints and another observation's label
unchanged. -/
theorem claim_C10_witness :
    computeBreakpoints (refValues ([mkObs 1 10 1] ++ ⟨5, false, 7, 7, 0, 1⟩ :: [mkObs 2 20 2])
      Obs.me) 2 =
      computeBreakpoints (refValues ([mkObs 1 10 1] ++ ⟨5, false, 99, 99, 0, 1⟩ :: [mkObs 2 20 2])
        Obs.me) 2 ∧
    assign_portfolio ([mkObs 1 10 1] ++ ⟨5, false, 7, 7, 0, 1⟩ :: [mkObs 2 20 2])
        Obs.me 2 (mkObs 2 20 2) =
      assign_portfolio ([mkObs 1 10 1] ++ ⟨5, false, 99, 99, 0, 1⟩ :: [mkObs 2 20 2])
        Obs.me 2 (mkObs 2 20 2) := by
  have h := claim_C10 [mkObs 1 10 1] [mkObs 2 20 2] ⟨5, false, 7, 7, 0, 1⟩
    ⟨5, false, 99, 99, 0, 1⟩ Obs.me 2 rfl rfl
  exact ⟨h.1, h.2 (mkObs 2 20 2)⟩
